import Mathlib

/-!
Verification of the road network builder
(gridtracer/data/imports/osm/road_network_builder.py).

The development shallowly embeds the edge-annotation and cost-derivation
pipeline of the RoadNetworkBuilder class: tag resolution, mode-flag
bit-packing, mask filtering, length and cost computation, one-way
directionality handling, display-name serialization with quote escaping,
and chunked bulk-insert statement generation.  Machine floats of the
Python source are modelled as rationals; Python dictionaries are modelled
as association lists with last-binding-wins lookup where the source builds
them by comprehension.
-/

/-- Attribute value of a pandas row cell as used by the source: the value
may be absent (None / NaN / missing column), a scalar string, or a list of
strings when the upstream graph simplification merged parallel edges. -/
inductive Attr where
  | absent : Attr
  | val (s : String) : Attr
  | listVal (l : List String) : Attr
deriving DecidableEq

/-- List-to-first-element normalization used throughout the edge loop:
models the pattern `x = x[0] if x else None` guarded by an isinstance list
check; a scalar passes through, an absent value or empty list yields none. -/
def firstIfList : Attr → Option String
  | Attr.absent => none
  | Attr.val s => some s
  | Attr.listVal [] => none
  | Attr.listVal (x :: _) => some x

/-- Same normalization but with an explicit fallback string, modelling
`row.get(key, dflt)` followed by `x = x[0] if x else dflt`.  The source
uses this with default value no for the oneway indicator. -/
def firstIfListD (dflt : String) : Attr → String
  | Attr.absent => dflt
  | Attr.val s => s
  | Attr.listVal [] => dflt
  | Attr.listVal (x :: _) => x

/-- Geometry attribute of an edge, abstracting the third-party shapely
object: is_empty drives Python truthiness of the object, and length_val
is the result of the .length property (none models the exception swallowed
by the bare except, which the source turns into length 0). -/
structure Geometry where
  is_empty : Bool
  length_val : Option ℚ
deriving DecidableEq

/-- Rule table entry of the way_tag_resolver configuration section: the
source reads clazz, maxspeed and flags with cfg.get defaults 0, 0 and
the empty list, so each field is optional here. -/
structure WayRule where
  clazz : Option Int
  maxspeed : Option Int
  flags : Option (List String)
deriving DecidableEq

/-- Relevant slice of the loaded configuration: the tag rule table, the
optional final_mask string (comma separated flag names), and the ordered
flag vocabulary flag_list. -/
structure Config where
  tags : List (String × WayRule)
  final_mask : Option String
  flag_list : List String
deriving DecidableEq

/-- Raw edge row as consumed by _process_and_write_edges: only the fields
the processed record depends on are modelled.  The tags field is the
optional nested tag dictionary the source merges over the highway value. -/
structure RawEdge where
  highway : Attr
  tags : Option (List (String × String))
  oneway : Attr
  length : Option ℚ
  geometry : Option Geometry
  name : Attr
  ref : Attr
deriving DecidableEq

/-- Normalized edge record produced by the processing loop, holding the
fields written by _process_and_write_edges before serialization. -/
structure Record where
  clazz : Int
  kmh : Int
  flags_set : List String
  km : ℚ
  cost : ℚ
  reverse_cost : ℚ
deriving DecidableEq

/-- Dictionary lookup on an association list with unique keys, modelling
Python dict .get on the nested tag dictionary. -/
def lookupTag (d : List (String × String)) (k : String) : Option String :=
  (d.find? (fun p => p.1 == k)).map (fun p => p.2)

/-- Effective highway value fed to the tag resolver: the source builds
tags = ("highway" maps to the list-normalized highway cell) and then
updates it with the nested tag dictionary when present, so a nested
highway entry overrides the column value. -/
def effectiveHighway (e : RawEdge) : Option String :=
  match e.tags with
  | some d =>
    match lookupTag d "highway" with
    | some v => some v
    | none => firstIfList e.highway
  | none => firstIfList e.highway

/-- Embedding of _resolve_way_tags: reads the highway value from the tag
bag; when it is truthy (present and nonempty, per Python truthiness) and a
key of the rule table, returns the configured triple with cfg.get
defaults; otherwise returns the sentinel (0, 0, empty set). -/
def resolve_way_tags (cfg : Config) (highway_type : Option String) :
    Int × Int × List String :=
  match highway_type with
  | none => (0, 0, [])
  | some h =>
    if h = "" then (0, 0, [])
    else
      match cfg.tags.find? (fun p => p.1 == h) with
      | some p => (p.2.clazz.getD 0, p.2.maxspeed.getD 0, p.2.flags.getD [])
      | none => (0, 0, [])

/-- Comma character, written by code point. -/
def commaChar : Char := Char.ofNat 44

/-- Helper of pySplitComma: splits the character list at every comma,
carrying the characters of the current piece in reverse. -/
def splitCommaAux : List Char → List Char → List String
  | acc, [] => [String.mk acc.reverse]
  | acc, c :: cs =>
    if c = commaChar then String.mk acc.reverse :: splitCommaAux [] cs
    else splitCommaAux (c :: acc) cs

/-- Python str.split on a comma, as the source applies it to the
final_mask configuration string. -/
def pySplitComma (s : String) : List String := splitCommaAux [] s.data

/-- Embedding of _is_way_allowed_by_final_mask: a falsy final_mask string
(absent or empty) means no mask and every flag set passes; with a mask
configured, an empty flag set is rejected and otherwise the way passes iff
the mask flags and the resolved flags are not disjoint. -/
def is_way_allowed_by_final_mask (final_mask_str : Option String)
    (flags_set : List String) : Bool :=
  match final_mask_str with
  | none => true
  | some s =>
    if s = "" then true
    else if flags_set.isEmpty then false
    else (pySplitComma s).any (fun f => flags_set.contains f)

/-- Lookup in the bitmask dictionary of _flags_to_int: the source builds
the dict by comprehension over enumerate(flag_list), so a repeated flag
name keeps its last index; .get(flag, 0) is modelled by searching the
reversed enumeration for the first match. -/
def flag_bitmask_get (flag_list : List String) (flag : String) : Nat :=
  match flag_list.enum.reverse.find? (fun p => p.2 == flag) with
  | some p => 1 <<< p.1
  | none => 0

/-- Embedding of _flags_to_int: starts from mask 0 and, when the flag set
is nonempty, ORs in the bitmask dictionary value of every flag of the set
(unknown flags contribute the .get default 0). -/
def flags_to_int (flag_list : List String) (flags_set : List String) : Nat :=
  if flags_set.isEmpty then 0
  else flags_set.foldl (fun mask flag => mask ||| flag_bitmask_get flag_list flag) 0

/-- Specification-side packing formula, stated from the spec wording for
comparison with flags_to_int: the bitwise OR of 1 shifted by i over
exactly the vocabulary positions i whose flag appears in the input set. -/
def packOrSpec (flag_list : List String) (flags_set : List String) : Nat :=
  flag_list.enum.foldl
    (fun acc p => if p.2 ∈ flags_set then acc ||| 1 <<< p.1 else acc) 0

/-- Length in meters resolved by the processing loop: the supplied length
with .get default 0; when that is 0 and the geometry is truthy, the
shapely length (0 when the property raises); otherwise 0 stays. -/
def resolveLengthM (length : Option ℚ) (geometry : Option Geometry) : ℚ :=
  let length_m := length.getD 0
  if length_m = 0 then
    match geometry with
    | some g => if g.is_empty then 0 else g.length_val.getD 0
    | none => 0
  else length_m

/-- Forward cost computed by the processing loop: km divided by maxspeed
in hours when maxspeed is positive, else km times the fixed penalty 10. -/
def computeCost (maxspeed : Int) (km : ℚ) : ℚ :=
  if maxspeed > 0 then km / (maxspeed : ℚ) else km * 10

/-- Per-character lowercase of a string, modelling the Python str.lower
call on the oneway indicator. -/
def pyLower (s : String) : String := String.mk (s.data.map Char.toLower)

/-- Reverse cost computed by the processing loop from the normalized
oneway indicator: a case-insensitive match against yes, true, 1, -1 marks
the edge one-way; a literal -1 indicator copies the forward cost, any
other one-way value blocks the reverse direction with 100000, and a
non-one-way edge copies the forward cost. -/
def computeReverseCost (oneway_val : String) (cost : ℚ) : ℚ :=
  if pyLower oneway_val ∈ (["yes", "true", "1", "-1"] : List String) then
    if oneway_val = "-1" then cost else (100000 : ℚ)
  else cost

/-- Per-edge pass of _process_and_write_edges up to the normalized record:
resolve the tag bag, drop the edge when the final mask rejects it or the
resolved class is the sentinel 0, then fill in length, costs and the
directionality-dependent reverse cost. -/
def processEdge (cfg : Config) (e : RawEdge) : Option Record :=
  let rt := resolve_way_tags cfg (effectiveHighway e)
  if !(is_way_allowed_by_final_mask cfg.final_mask rt.2.2) then none
  else if rt.1 = 0 then none
  else
    let km := resolveLengthM e.length e.geometry / 1000
    let cost := computeCost rt.2.1 km
    some { clazz := rt.1, kmh := rt.2.1, flags_set := rt.2.2, km := km,
           cost := cost,
           reverse_cost := computeReverseCost (firstIfListD "no" e.oneway) cost }

/-- Single quote character, written by code point to keep the source free
of quote literals. -/
def quoteChar : Char := Char.ofNat 39

/-- Quote escaping of the serializer: models str.replace of a single
quote by two single quotes, character by character. -/
def escapeQuotes : List Char → List Char
  | [] => []
  | c :: cs =>
    if c = quoteChar then quoteChar :: quoteChar :: escapeQuotes cs
    else c :: escapeQuotes cs

/-- Quoted SQL string literal of the serializer: the escaped text wrapped
in single quotes. -/
def sqlQuoteString (s : String) : String :=
  String.mk (quoteChar :: escapeQuotes s.data ++ [quoteChar])

/-- Inverse of the quote doubling: collapses every doubled quote back to
one quote, the naive scan a SQL consumer performs inside a literal. -/
def unescapeQuotes : List Char → List Char
  | [] => []
  | [c] => [c]
  | c1 :: c2 :: cs =>
    if c1 = quoteChar ∧ c2 = quoteChar then quoteChar :: unescapeQuotes cs
    else c1 :: unescapeQuotes (c2 :: cs)

/-- Python str.strip: removes whitespace characters from both ends. -/
def pyStrip (s : String) : String :=
  String.mk (((s.data.dropWhile Char.isWhitespace).reverse.dropWhile
    Char.isWhitespace).reverse)

/-- Python truthiness of pd.notna(x) and str(x).strip(): the value is
present and its stripped text is nonempty. -/
def textPresent : Option String → Bool
  | none => false
  | some s => decide (pyStrip s ≠ "")

/-- Display name serialization of the second loop: default NULL, replaced
by the quoted name when the list-normalized name cell is present and
nonempty after strip, else by the quoted ref cell under the same test. -/
def finalNameForSql (nameAttr refAttr : Attr) : String :=
  let n := firstIfList nameAttr
  let r := firstIfList refAttr
  if textPresent n then sqlQuoteString (n.getD "")
  else if textPresent r then sqlQuoteString (r.getD "")
  else "NULL"

/-- Fuel-indexed chunking of a list into consecutive slices of at most n
elements, the fuel bounding the recursion depth structurally. -/
def chunksOfAux (n : Nat) : Nat → List α → List (List α)
  | 0, _ => []
  | _ + 1, [] => []
  | fuel + 1, x :: xs => (x :: xs).take n :: chunksOfAux n fuel ((x :: xs).drop n)

/-- Chunking of build_network: the slices l[i : i + n] for i ranging over
range(0, len(l), n). -/
def chunksOf (n : Nat) (l : List α) : List (List α) :=
  chunksOfAux n l.length l

/-- Fixed head of every bulk-insert statement emitted by build_network. -/
def insertStmtHeader : String := "INSERT INTO public_2po_4pgr VALUES"

/-- One bulk-insert statement block of build_network: the fixed head, the
value tuples joined by comma-newline, and the terminating delimiter. -/
def mkChunkStmt (chunk : List String) : String :=
  insertStmtHeader ++ "\n" ++ String.intercalate ",\n" chunk ++ ";\n"

/-- Insert block generation of build_network: nothing when there are no
value tuples, otherwise one statement block per chunk of at most 1000
tuples, in input order. -/
def generateInsertBlocks (tuples : List String) : List String :=
  if tuples.isEmpty then []
  else (chunksOf 1000 tuples).map mkChunkStmt

/-- Inversion of a successful processEdge run: each field of the produced
record is given by the corresponding source formula. -/
lemma processEdge_spec (cfg : Config) (e : RawEdge) (r : Record)
    (h : processEdge cfg e = some r) :
    r.clazz = (resolve_way_tags cfg (effectiveHighway e)).1 ∧
    r.kmh = (resolve_way_tags cfg (effectiveHighway e)).2.1 ∧
    r.flags_set = (resolve_way_tags cfg (effectiveHighway e)).2.2 ∧
    r.km = resolveLengthM e.length e.geometry / 1000 ∧
    r.cost = computeCost r.kmh r.km ∧
    r.reverse_cost = computeReverseCost (firstIfListD "no" e.oneway) r.cost := by
  simp only [processEdge] at h
  split at h
  · exact Option.noConfusion h
  · split at h
    · exact Option.noConfusion h
    · injection h with h
      subst h
      exact ⟨rfl, rfl, rfl, rfl, rfl, rfl⟩

/-- C1: for every processed edge whose one-way indicator, compared
case-insensitively, is one of yes, true or 1, the edge processor sets the
reverse cost to the fixed blocking value 100000; for every edge whose
indicator is no or absent (not one-way), the reverse cost equals the
forward cost. -/
theorem oneway_blocking_reverse_cost (cfg : Config) (e : RawEdge) (r : Record)
    (h : processEdge cfg e = some r) :
    (pyLower (firstIfListD "no" e.oneway) ∈ (["yes", "true", "1"] : List String) →
      r.reverse_cost = 100000) ∧
    ((e.oneway = Attr.absent ∨ firstIfListD "no" e.oneway = "no") →
      r.reverse_cost = r.cost) := by
  obtain ⟨-, -, -, -, -, hrev⟩ := processEdge_spec cfg e r h
  constructor
  · intro hmem
    have hne : firstIfListD "no" e.oneway ≠ "-1" := by
      intro hv
      rw [hv] at hmem
      exact absurd hmem (by decide)
    have hmem4 : pyLower (firstIfListD "no" e.oneway) ∈
        (["yes", "true", "1", "-1"] : List String) := by
      simp only [List.mem_cons] at hmem ⊢
      tauto
    rw [hrev]
    unfold computeReverseCost
    rw [if_pos hmem4, if_neg hne]
  · intro hno
    have hval : firstIfListD "no" e.oneway = "no" := by
      rcases hno with h1 | h1
      · rw [h1]; rfl
      · exact h1
    rw [hrev, hval]
    unfold computeReverseCost
    rw [if_neg (by decide)]

/-- C2: for every processed edge whose one-way indicator is the literal
string -1 (reversed one-way), the edge processor sets the reverse cost
equal to the forward cost and leaves the forward cost as the unpenalized
length over speed value, applying no blocking penalty in either
direction. -/
theorem reversed_oneway_copies_forward_cost (cfg : Config) (e : RawEdge)
    (r : Record) (h : processEdge cfg e = some r)
    (hind : firstIfListD "no" e.oneway = "-1") :
    r.reverse_cost = r.cost ∧
    (r.kmh > 0 → r.cost = r.km / (r.kmh : ℚ)) ∧
    r.km = resolveLengthM e.length e.geometry / 1000 := by
  obtain ⟨-, -, -, hkm, hcost, hrev⟩ := processEdge_spec cfg e r h
  refine ⟨?_, ?_, hkm⟩
  · rw [hrev, hind]
    unfold computeReverseCost
    rw [if_pos (by decide), if_pos rfl]
  · intro hk
    rw [hcost]
    unfold computeCost
    rw [if_pos hk]

/-- C3: for every processed edge, a strictly positive resolved speed gives
forward cost equal to length in kilometers divided by the speed, a zero
resolved speed gives forward cost equal to length in kilometers times the
fixed penalty factor 10, where the kilometer length is the resolved meter
length divided by 1000 and the meter length falls back to the geometry
native length when the supplied length is absent or zero. -/
theorem forward_cost_formula (cfg : Config) (e : RawEdge) (r : Record)
    (h : processEdge cfg e = some r) :
    (r.kmh > 0 → r.cost = r.km / (r.kmh : ℚ)) ∧
    (r.kmh = 0 → r.cost = r.km * 10) ∧
    r.km = resolveLengthM e.length e.geometry / 1000 ∧
    (∀ g, e.geometry = some g → g.is_empty = false → e.length.getD 0 = 0 →
      resolveLengthM e.length e.geometry = g.length_val.getD 0) := by
  obtain ⟨-, -, -, hkm, hcost, -⟩ := processEdge_spec cfg e r h
  refine ⟨?_, ?_, hkm, ?_⟩
  · intro hk
    rw [hcost]
    unfold computeCost
    rw [if_pos hk]
  · intro hk
    rw [hcost]
    unfold computeCost
    rw [if_neg (by omega)]
  · intro g hg hge hlen
    simp [resolveLengthM, hlen, hg, hge]

/-- Rule table with a single motorway rule, used by concrete witnesses. -/
def testCfg : Config :=
  { tags := [("motorway",
      { clazz := some 11, maxspeed := some 120, flags := some ["car"] })],
    final_mask := none,
    flag_list := ["car", "bike", "foot"] }

/-- Concrete 2000 meter motorway edge with indicator yes. -/
def testEdgeYes : RawEdge :=
  { highway := Attr.val "motorway", tags := none, oneway := Attr.val "yes",
    length := some 2000, geometry := none,
    name := Attr.absent, ref := Attr.absent }

/-- Record produced for testEdgeYes. -/
def testRecYes : Record :=
  { clazz := 11, kmh := 120, flags_set := ["car"], km := 2,
    cost := 1 / 60, reverse_cost := 100000 }

/-- Concrete 2000 meter motorway edge with indicator -1. -/
def testEdgeRev : RawEdge :=
  { highway := Attr.val "motorway", tags := none, oneway := Attr.val "-1",
    length := some 2000, geometry := none,
    name := Attr.absent, ref := Attr.absent }

/-- Record produced for testEdgeRev. -/
def testRecRev : Record :=
  { clazz := 11, kmh := 120, flags_set := ["car"], km := 2,
    cost := 1 / 60, reverse_cost := 1 / 60 }

/-- Evaluation of processEdge on the concrete yes edge. -/
lemma processEdge_testEdgeYes : processEdge testCfg testEdgeYes = some testRecYes := by
  simp +decide [processEdge, testCfg, testEdgeYes, testRecYes, resolve_way_tags,
    effectiveHighway, firstIfList, firstIfListD, is_way_allowed_by_final_mask,
    resolveLengthM, computeCost, computeReverseCost, pyLower]
  norm_num

/-- Evaluation of processEdge on the concrete reversed edge. -/
lemma processEdge_testEdgeRev : processEdge testCfg testEdgeRev = some testRecRev := by
  simp +decide [processEdge, testCfg, testEdgeRev, testRecRev, resolve_way_tags,
    effectiveHighway, firstIfList, firstIfListD, is_way_allowed_by_final_mask,
    resolveLengthM, computeCost, computeReverseCost, pyLower]
  norm_num

/-- Witness for C1 at a concrete motorway edge with indicator yes. -/
theorem oneway_blocking_reverse_cost_witness :
    testRecYes.reverse_cost = 100000 :=
  (oneway_blocking_reverse_cost testCfg testEdgeYes testRecYes
    processEdge_testEdgeYes).1 (by decide)

/-- Witness for C2 at a concrete motorway edge with indicator -1. -/
theorem reversed_oneway_copies_forward_cost_witness :
    testRecRev.reverse_cost = testRecRev.cost :=
  (reversed_oneway_copies_forward_cost testCfg testEdgeRev testRecRev
    processEdge_testEdgeRev (by decide)).1

/-- Witness for C3 at a concrete motorway edge: speed 120 and 2 kilometers
give forward cost one sixtieth of an hour. -/
theorem forward_cost_formula_witness :
    testRecYes.cost = testRecYes.km / (testRecYes.kmh : ℚ) :=
  (forward_cost_formula testCfg testEdgeYes testRecYes
    processEdge_testEdgeYes).1 (by decide)

/-- C4: for every tag bag whose primary classification tag highway is
missing, or whose value is not a key of the rule table, the tag resolver
returns class 0, speed 0 and an empty flag set (the embedding is a total
function, so nothing is raised), and every edge that resolves to class 0
is excluded from the final record set. -/
theorem unmatched_highway_sentinel (cfg : Config) :
    resolve_way_tags cfg none = (0, 0, []) ∧
    (∀ h : String, cfg.tags.find? (fun p => p.1 == h) = none →
      resolve_way_tags cfg (some h) = (0, 0, [])) ∧
    (∀ e : RawEdge, (resolve_way_tags cfg (effectiveHighway e)).1 = 0 →
      processEdge cfg e = none) := by
  refine ⟨rfl, ?_, ?_⟩
  · intro h hfind
    simp [resolve_way_tags, hfind]
  · intro e h0
    simp [processEdge, h0]

/-- Raw edge whose highway value is not a key of the test rule table. -/
def testEdgeUnknown : RawEdge :=
  { highway := Attr.val "footpath", tags := none, oneway := Attr.val "no",
    length := some 2000, geometry := none,
    name := Attr.absent, ref := Attr.absent }

/-- Witness for C4: a highway value absent from the rule table resolves to
the sentinel, and the corresponding edge is dropped. -/
theorem unmatched_highway_sentinel_witness :
    resolve_way_tags testCfg (some "footpath") = (0, 0, []) ∧
    processEdge testCfg testEdgeUnknown = none :=
  ⟨(unmatched_highway_sentinel testCfg).2.1 "footpath" (by decide),
   (unmatched_highway_sentinel testCfg).2.2 testEdgeUnknown (by decide)⟩

/-- C5: the mask filter returns true for every flag set when no allow
mask is configured; when a nonempty mask string is configured it returns
false for the empty flag set, and for a nonempty flag set it returns true
exactly when the flag set and the mask share an element. -/
theorem final_mask_filter_policy (final_mask_str : Option String)
    (flags_set : List String) :
    (final_mask_str = none →
      is_way_allowed_by_final_mask final_mask_str flags_set = true) ∧
    (∀ s : String, final_mask_str = some s → s ≠ "" →
      ((flags_set = [] →
        is_way_allowed_by_final_mask final_mask_str flags_set = false) ∧
       (flags_set ≠ [] →
        (is_way_allowed_by_final_mask final_mask_str flags_set = true ↔
          ∃ f, f ∈ flags_set ∧ f ∈ pySplitComma s)))) := by
  constructor
  · intro h
    subst h
    rfl
  · intro s hs hne
    subst hs
    constructor
    · intro hfl
      subst hfl
      simp [is_way_allowed_by_final_mask, hne]
    · intro hfl
      simp only [is_way_allowed_by_final_mask]
      rw [if_neg hne, if_neg (by simpa [List.isEmpty_iff] using hfl)]
      constructor
      · intro hany
        rw [List.any_eq_true] at hany
        obtain ⟨x, hx, hc⟩ := hany
        exact ⟨x, by simpa using hc, hx⟩
      · rintro ⟨f, hf, hm⟩
        rw [List.any_eq_true]
        exact ⟨f, hm, by simpa using hf⟩

/-- Witness for C5: with mask car, a way flagged car passes the filter. -/
theorem final_mask_filter_policy_witness :
    is_way_allowed_by_final_mask (some "car") ["car"] = true :=
  (((final_mask_filter_policy (some "car") ["car"]).2 "car" rfl
    (by decide)).2 (by decide)).mpr ⟨"car", by decide, by decide⟩

/-- C9: for every edge, the serialized display name is the quoted
list-normalized name value when it is present and nonempty after strip;
otherwise the quoted list-normalized ref value under the same test;
otherwise the unquoted SQL literal NULL. -/
theorem display_name_fallback (nameAttr refAttr : Attr) :
    (∀ s, firstIfList nameAttr = some s → pyStrip s ≠ "" →
      finalNameForSql nameAttr refAttr = sqlQuoteString s) ∧
    (textPresent (firstIfList nameAttr) = false →
      ∀ t, firstIfList refAttr = some t → pyStrip t ≠ "" →
        finalNameForSql nameAttr refAttr = sqlQuoteString t) ∧
    (textPresent (firstIfList nameAttr) = false →
      textPresent (firstIfList refAttr) = false →
      finalNameForSql nameAttr refAttr = "NULL") := by
  refine ⟨?_, ?_, ?_⟩
  · intro s hs ht
    simp [finalNameForSql, hs, textPresent, ht]
  · intro hn t ht htr
    simp only [finalNameForSql, hn, ht]
    simp [textPresent, htr]
  · intro hn hr
    simp [finalNameForSql, hn, hr]

/-- Witness for C9: a present nonempty name cell serializes as the quoted
name and the ref cell is ignored. -/
theorem display_name_fallback_witness :
    finalNameForSql (Attr.val "Main Street") (Attr.val "B1") =
      sqlQuoteString "Main Street" :=
  (display_name_fallback (Attr.val "Main Street") (Attr.val "B1")).1
    "Main Street" rfl (by decide)

/-- Escaping a nonempty character list never yields the empty list. -/
lemma escapeQuotes_ne_nil (c : Char) (cs : List Char) :
    escapeQuotes (c :: cs) ≠ [] := by
  unfold escapeQuotes
  split <;> simp

/-- Unescaping a list whose head is not a quote keeps the head. -/
lemma unescapeQuotes_cons_of_ne (c : Char) (hc : c ≠ quoteChar)
    (l : List Char) (hl : l ≠ []) :
    unescapeQuotes (c :: l) = c :: unescapeQuotes l := by
  cases l with
  | nil => exact absurd rfl hl
  | cons d ds =>
    have hstep : unescapeQuotes (c :: d :: ds) =
        if c = quoteChar ∧ d = quoteChar then quoteChar :: unescapeQuotes ds
        else c :: unescapeQuotes (d :: ds) := rfl
    rw [hstep, if_neg (fun hand => hc hand.1)]

/-- Collapsing doubled quotes undoes the quote doubling, so the original
text is recoverable from the escaped text. -/
lemma unescape_escape (l : List Char) :
    unescapeQuotes (escapeQuotes l) = l := by
  induction l with
  | nil => rfl
  | cons c cs ih =>
    by_cases hc : c = quoteChar
    · subst hc
      rw [escapeQuotes, if_pos rfl]
      have hstep : unescapeQuotes (quoteChar :: quoteChar :: escapeQuotes cs) =
          if quoteChar = quoteChar ∧ quoteChar = quoteChar then
            quoteChar :: unescapeQuotes (escapeQuotes cs)
          else quoteChar :: unescapeQuotes (quoteChar :: escapeQuotes cs) := rfl
      rw [hstep, if_pos ⟨rfl, rfl⟩, ih]
    · rw [escapeQuotes, if_neg hc]
      cases cs with
      | nil => rfl
      | cons d ds =>
        rw [unescapeQuotes_cons_of_ne c hc _ (escapeQuotes_ne_nil d ds), ih]

/-- Quote doubling exactly doubles the number of quote characters. -/
lemma escapeQuotes_count (l : List Char) :
    (escapeQuotes l).count quoteChar = 2 * l.count quoteChar := by
  induction l with
  | nil => rfl
  | cons c cs ih =>
    by_cases hc : c = quoteChar
    · subst hc
      rw [escapeQuotes, if_pos rfl]
      simp [List.count_cons, ih]
      omega
    · rw [escapeQuotes, if_neg hc]
      simp [List.count_cons, hc, ih]

/-- C8: for every textual field value the serializer doubles every single
quote, wraps the result in single quotes (the emitted literal starts and
ends with a quote), and emits the unquoted literal NULL for absent
values; stripping the wrapping quotes and collapsing doubled quotes
recovers the original string from the emitted literal. -/
theorem sql_text_escaping_round_trip (s : String) :
    unescapeQuotes (((sqlQuoteString s).data.drop 1).dropLast) = s.data ∧
    (escapeQuotes s.data).count quoteChar = 2 * s.data.count quoteChar ∧
    (sqlQuoteString s).data.head? = some quoteChar ∧
    (sqlQuoteString s).data.getLast? = some quoteChar ∧
    finalNameForSql Attr.absent Attr.absent = "NULL" := by
  refine ⟨?_, escapeQuotes_count s.data, rfl, ?_, rfl⟩
  · show unescapeQuotes
      (((quoteChar :: escapeQuotes s.data ++ [quoteChar]).drop 1).dropLast) = s.data
    rw [List.cons_append, List.drop_one, List.tail_cons, List.dropLast_concat,
      unescape_escape]
  · show (quoteChar :: escapeQuotes s.data ++ [quoteChar]).getLast? = some quoteChar
    exact List.getLast?_concat _

/-- Running chunking with fuel on the empty list yields no chunks. -/
lemma chunksOfAux_nil (n fuel : Nat) : chunksOfAux (α := α) n fuel [] = [] := by
  cases fuel <;> rfl

/-- One unfolding step of the fuelled chunking on a nonempty list. -/
lemma chunksOfAux_cons (n fuel : Nat) (l : List α) (hl : l ≠ []) :
    chunksOfAux n (fuel + 1) l = l.take n :: chunksOfAux n fuel (l.drop n) := by
  cases l with
  | nil => exact absurd rfl hl
  | cons x xs => rfl

/-- Concatenating the chunks returns the original list, so chunking keeps
every element in its input order, within and across chunks. -/
lemma chunksOfAux_flatten (n : Nat) (hn : 0 < n) :
    ∀ (fuel : Nat) (l : List α), l.length ≤ fuel →
      (chunksOfAux n fuel l).flatten = l := by
  intro fuel
  induction fuel with
  | zero =>
    intro l hl
    have h : l = [] := List.eq_nil_of_length_eq_zero (Nat.le_zero.mp hl)
    subst h
    rfl
  | succ fuel ih =>
    intro l hl
    by_cases h : l = []
    · subst h
      rw [chunksOfAux_nil]
      rfl
    · rw [chunksOfAux_cons n fuel l h, List.flatten_cons, ih]
      · exact List.take_append_drop n l
      · rw [List.length_drop]
        have h1 : 0 < l.length := List.length_pos.mpr h
        omega

/-- Every chunk holds at most n elements. -/
lemma chunksOfAux_sizes (n fuel : Nat) :
    ∀ (l : List α), ∀ c ∈ chunksOfAux n fuel l, c.length ≤ n := by
  induction fuel with
  | zero =>
    intro l c hc
    exact absurd hc (List.not_mem_nil c)
  | succ fuel ih =>
    intro l c hc
    cases l with
    | nil =>
      rw [chunksOfAux_nil] at hc
      exact absurd hc (List.not_mem_nil c)
    | cons x xs =>
      rw [chunksOfAux_cons n fuel _ (by simp)] at hc
      rcases List.mem_cons.mp hc with h | h
      · subst h
        exact List.length_take_le n _
      · exact ih _ c h

/-- Chunk sizes for an input of exactly 2500 elements. -/
lemma chunksOf_map_length_2500 (l : List α) (hl : l.length = 2500) :
    (chunksOf 1000 l).map List.length = [1000, 1000, 500] := by
  have h0 : l ≠ [] := by
    intro h
    rw [h] at hl
    simp at hl
  have hd1 : (l.drop 1000).length = 1500 := by rw [List.length_drop, hl]
  have h1 : l.drop 1000 ≠ [] := by
    intro h
    rw [h] at hd1
    simp at hd1
  have hd2 : ((l.drop 1000).drop 1000).length = 500 := by
    rw [List.length_drop, hd1]
  have h2 : (l.drop 1000).drop 1000 ≠ [] := by
    intro h
    rw [h] at hd2
    simp at hd2
  have hd3 : ((l.drop 1000).drop 1000).drop 1000 = [] := by
    apply List.eq_nil_of_length_eq_zero
    rw [List.length_drop, hd2]
  unfold chunksOf
  rw [hl]
  rw [show (2500 : Nat) = 2499 + 1 from rfl, chunksOfAux_cons _ _ _ h0]
  rw [show (2499 : Nat) = 2498 + 1 from rfl, chunksOfAux_cons _ _ _ h1]
  rw [show (2498 : Nat) = 2497 + 1 from rfl, chunksOfAux_cons _ _ _ h2]
  rw [hd3, chunksOfAux_nil]
  simp [List.length_take, hl, hd1, hd2]

/-- C7: serialization batches the value tuples into insert blocks of at
most 1000 rows, each block a complete statement ending with the statement
delimiter; zero rows yield zero blocks, 2500 rows yield exactly 3 blocks
of sizes 1000, 1000 and 500, and rows appear in the same relative order
as the input, within each block and across blocks. -/
theorem insert_block_chunking (tuples : List String) :
    (∀ c ∈ chunksOf 1000 tuples, c.length ≤ 1000) ∧
    (∀ b ∈ generateInsertBlocks tuples, ∃ c ∈ chunksOf 1000 tuples,
      b = (insertStmtHeader ++ "\n" ++ String.intercalate ",\n" c) ++ ";\n") ∧
    (tuples = [] → generateInsertBlocks tuples = []) ∧
    (tuples.length = 2500 →
      (generateInsertBlocks tuples).length = 3 ∧
      (chunksOf 1000 tuples).map List.length = [1000, 1000, 500]) ∧
    (chunksOf 1000 tuples).flatten = tuples := by
  refine ⟨chunksOfAux_sizes 1000 tuples.length tuples, ?_, ?_, ?_,
    chunksOfAux_flatten 1000 (by norm_num) tuples.length tuples le_rfl⟩
  · intro b hb
    unfold generateInsertBlocks at hb
    split at hb
    · exact absurd hb (List.not_mem_nil b)
    · obtain ⟨c, hc, hbc⟩ := List.mem_map.mp hb
      exact ⟨c, hc, by rw [← hbc]; rfl⟩
  · intro h
    subst h
    rfl
  · intro hl
    refine ⟨?_, chunksOf_map_length_2500 tuples hl⟩
    have h3 : (chunksOf 1000 tuples).length = 3 := by
      have hmap := congrArg List.length (chunksOf_map_length_2500 tuples hl)
      simpa using hmap
    have hne : ¬ tuples.isEmpty = true := by
      intro h
      rw [List.isEmpty_iff.mp h] at hl
      simp at hl
    unfold generateInsertBlocks
    rw [if_neg hne, List.length_map]
    exact h3

/-- Witness for C7: 2500 concrete rows produce chunk sizes 1000, 1000 and
500, and zero rows produce zero insert blocks. -/
theorem insert_block_chunking_witness :
    ((chunksOf 1000 (List.replicate 2500 "(0)")).map List.length =
      [1000, 1000, 500]) ∧
    generateInsertBlocks ([] : List String) = [] :=
  ⟨((insert_block_chunking (List.replicate 2500 "(0)")).2.2.2.1
      (by rw [List.length_replicate])).2,
   (insert_block_chunking ([] : List String)).2.2.1 rfl⟩

/-- Bit k of a fold of bitwise ORs is set when it is set in the seed or in
one of the folded values. -/
lemma foldl_or_testBit {α : Type _} (g : α → Nat) (l : List α) (a k : Nat) :
    (l.foldl (fun m x => m ||| g x) a).testBit k
      = (a.testBit k || l.any (fun x => (g x).testBit k)) := by
  induction l generalizing a with
  | nil => simp
  | cons x xs ih =>
    rw [List.foldl_cons, ih, List.any_cons, Nat.testBit_or, Bool.or_assoc]

/-- Folding a guarded OR equals folding an OR of a guarded value. -/
lemma foldl_or_ite_eq {α : Type _} (P : α → Prop) [DecidablePred P]
    (g : α → Nat) (l : List α) (a : Nat) :
    l.foldl (fun acc x => if P x then acc ||| g x else acc) a
      = l.foldl (fun acc x => acc ||| (if P x then g x else 0)) a := by
  induction l generalizing a with
  | nil => rfl
  | cons x xs ih =>
    rw [List.foldl_cons, List.foldl_cons, ih]
    congr 1
    by_cases hP : P x
    · rw [if_pos hP, if_pos hP]
    · rw [if_neg hP, if_neg hP, Nat.or_zero]

/-- Bit characterization of the packed mask: bit k is set when some flag
of the set has a bitmask dictionary value with bit k set. -/
lemma flags_to_int_testBit (L S : List String) (k : Nat) :
    (flags_to_int L S).testBit k
      = S.any (fun f => (flag_bitmask_get L f).testBit k) := by
  unfold flags_to_int
  split
  · next hS =>
    rw [List.isEmpty_iff.mp hS]
    simp
  · rw [foldl_or_testBit]
    simp

/-- find? returns the unique element satisfying the test. -/
lemma find?_eq_some_of_unique {α : Type _} {p : α → Bool} {a : α} :
    ∀ {l : List α}, a ∈ l → p a = true →
      (∀ b ∈ l, p b = true → b = a) → l.find? p = some a := by
  intro l
  induction l with
  | nil =>
    intro ha _ _
    exact absurd ha (List.not_mem_nil a)
  | cons x xs ih =>
    intro ha hpa huniq
    cases hpx : p x with
    | true =>
      rw [List.find?_cons_of_pos xs hpx]
      exact congrArg some (huniq x (List.mem_cons_self x xs) hpx)
    | false =>
      rw [List.find?_cons_of_neg xs (by simp [hpx])]
      refine ih ?_ hpa ?_
      · rcases List.mem_cons.mp ha with h | h
        · subst h
          rw [hpa] at hpx
          exact Bool.noConfusion hpx
        · exact h
      · intro b hb hpb
        exact huniq b (List.mem_cons_of_mem x hb) hpb

/-- On a duplicate-free vocabulary, the bitmask dictionary sends the flag
at position k to the single bit k. -/
lemma flag_bitmask_get_eq_shift (L : List String) (hL : L.Nodup) (k : Nat)
    (hk : k < L.length) : flag_bitmask_get L (L[k]) = 1 <<< k := by
  have hfind : L.enum.reverse.find? (fun p => p.2 == L[k]) = some (k, L[k]) := by
    apply find?_eq_some_of_unique
    · rw [List.mem_reverse, List.mk_mem_enum_iff_getElem?]
      exact List.getElem?_eq_getElem hk
    · simp
    · rintro ⟨j, g⟩ hb hpb
      rw [List.mem_reverse, List.mk_mem_enum_iff_getElem?] at hb
      have hg : g = L[k] := by simpa using hpb
      subst hg
      obtain ⟨hj, hgj⟩ := List.getElem?_eq_some_iff.mp hb
      have hjk : j = k := (hL.getElem_inj_iff).mp hgj
      rw [hjk]
  unfold flag_bitmask_get
  rw [hfind]

/-- A flag outside the vocabulary gets the dictionary default 0. -/
lemma flag_bitmask_get_of_not_mem (L : List String) (f : String)
    (hf : f ∉ L) : flag_bitmask_get L f = 0 := by
  have hfind : L.enum.reverse.find? (fun p => p.2 == f) = none := by
    rw [List.find?_eq_none]
    rintro ⟨j, g⟩ hb
    rw [List.mem_reverse, List.mk_mem_enum_iff_getElem?] at hb
    obtain ⟨hj, hgj⟩ := List.getElem?_eq_some_iff.mp hb
    simp only [beq_iff_eq]
    intro hgf
    exact hf (hgf ▸ hgj ▸ List.getElem_mem hj)
  unfold flag_bitmask_get
  rw [hfind]

/-- Every bitmask dictionary value is below 2 to the vocabulary length. -/
lemma flag_bitmask_get_lt (L : List String) (f : String) :
    flag_bitmask_get L f < 2 ^ L.length := by
  unfold flag_bitmask_get
  split
  · next p hp =>
    obtain ⟨j, g⟩ := p
    have hmem := List.mem_of_find?_eq_some hp
    rw [List.mem_reverse, List.mk_mem_enum_iff_getElem?] at hmem
    obtain ⟨hj, -⟩ := List.getElem?_eq_some_iff.mp hmem
    show (1 : Nat) <<< j < 2 ^ L.length
    rw [Nat.shiftLeft_eq, one_mul]
    exact pow_lt_pow_right₀ (by norm_num) hj
  · exact Nat.two_pow_pos _

/-- C10: the packed bitmask always satisfies 0 at most pack and pack
strictly below 2 to the vocabulary length, so only bits at positions
assigned by the vocabulary are ever set. -/
theorem flags_to_int_lt_two_pow (flag_list flags_set : List String) :
    0 ≤ flags_to_int flag_list flags_set ∧
    flags_to_int flag_list flags_set < 2 ^ flag_list.length := by
  refine ⟨Nat.zero_le _, ?_⟩
  unfold flags_to_int
  split
  · exact Nat.two_pow_pos _
  · have hgen : ∀ (S : List String) (a : Nat), a < 2 ^ flag_list.length →
        S.foldl (fun mask flag => mask ||| flag_bitmask_get flag_list flag) a
          < 2 ^ flag_list.length := by
      intro S
      induction S with
      | nil =>
        intro a ha
        exact ha
      | cons x xs ih =>
        intro a ha
        rw [List.foldl_cons]
        exact ih _ (Nat.or_lt_two_pow ha (flag_bitmask_get_lt flag_list x))
    exact hgen flags_set 0 (Nat.two_pow_pos _)

/-- On a duplicate-free vocabulary, bit k of the packed mask is set
exactly when the vocabulary flag at position k belongs to the set. -/
lemma flags_to_int_testBit_iff (L S : List String) (hL : L.Nodup) (k : Nat) :
    ((flags_to_int L S).testBit k = true ↔
      ∃ hk : k < L.length, L[k] ∈ S) := by
  rw [flags_to_int_testBit, List.any_eq_true]
  constructor
  · rintro ⟨f, hfS, hbit⟩
    by_cases hfL : f ∈ L
    · obtain ⟨i, hi, hgi⟩ := List.mem_iff_getElem.mp hfL
      rw [← hgi] at hbit hfS
      rw [flag_bitmask_get_eq_shift L hL i hi] at hbit
      rw [Nat.shiftLeft_eq, one_mul, Nat.testBit_two_pow] at hbit
      have hik : i = k := of_decide_eq_true hbit
      subst hik
      exact ⟨hi, hfS⟩
    · rw [flag_bitmask_get_of_not_mem L f hfL] at hbit
      simp at hbit
  · rintro ⟨hk, hmem⟩
    refine ⟨L[k], hmem, ?_⟩
    rw [flag_bitmask_get_eq_shift L hL k hk, Nat.shiftLeft_eq, one_mul,
      Nat.testBit_two_pow]
    simp

/-- Bit k of the specification packing formula is set exactly when the
vocabulary flag at position k belongs to the set. -/
lemma packOrSpec_testBit_iff (L S : List String) (k : Nat) :
    ((packOrSpec L S).testBit k = true ↔
      ∃ hk : k < L.length, L[k] ∈ S) := by
  unfold packOrSpec
  rw [foldl_or_ite_eq, foldl_or_testBit]
  simp only [Nat.zero_testBit, Bool.false_or]
  rw [List.any_eq_true]
  constructor
  · rintro ⟨⟨i, g⟩, hmem, hbit⟩
    rw [List.mk_mem_enum_iff_getElem?] at hmem
    obtain ⟨hi, hgi⟩ := List.getElem?_eq_some_iff.mp hmem
    by_cases hgS : g ∈ S
    · rw [if_pos hgS] at hbit
      rw [Nat.shiftLeft_eq, one_mul, Nat.testBit_two_pow] at hbit
      have hik : i = k := of_decide_eq_true hbit
      subst hik
      exact ⟨hi, hgi ▸ hgS⟩
    · rw [if_neg hgS] at hbit
      simp at hbit
  · rintro ⟨hk, hmem⟩
    refine ⟨(k, L[k]), ?_, ?_⟩
    · rw [List.mk_mem_enum_iff_getElem?]
      exact List.getElem?_eq_getElem hk
    · rw [if_pos hmem, Nat.shiftLeft_eq, one_mul, Nat.testBit_two_pow]
      simp

/-- On a duplicate-free vocabulary the source packing agrees with the
specification OR formula. -/
lemma flags_to_int_eq_packOrSpec (L S : List String) (hL : L.Nodup) :
    flags_to_int L S = packOrSpec L S := by
  apply Nat.eq_of_testBit_eq
  intro k
  have h1 := flags_to_int_testBit_iff L S hL k
  have h2 := packOrSpec_testBit_iff L S k
  cases hb : (flags_to_int L S).testBit k with
  | true => exact (h2.mpr (h1.mp hb)).symm
  | false =>
    cases hp : (packOrSpec L S).testBit k with
    | false => rfl
    | true =>
      have hcontra := h1.mpr (h2.mp hp)
      rw [hb] at hcontra
      exact Bool.noConfusion hcontra

/-- The specification packing formula only depends on membership in the
flag set. -/
lemma packOrSpec_congr (L : List String) {S S2 : List String}
    (h : ∀ x, x ∈ S ↔ x ∈ S2) : packOrSpec L S = packOrSpec L S2 := by
  unfold packOrSpec
  have hgen : ∀ (l : List (Nat × String)) (a : Nat),
      l.foldl (fun acc p => if p.2 ∈ S then acc ||| 1 <<< p.1 else acc) a
        = l.foldl (fun acc p => if p.2 ∈ S2 then acc ||| 1 <<< p.1 else acc) a := by
    intro l
    induction l with
    | nil =>
      intro a
      rfl
    | cons x xs ih =>
      intro a
      rw [List.foldl_cons, List.foldl_cons, ih]
      congr 1
      by_cases hx : x.2 ∈ S
      · rw [if_pos hx, if_pos ((h x.2).mp hx)]
      · rw [if_neg hx, if_neg (fun hx2 => hx ((h x.2).mpr hx2))]
  exact hgen L.enum 0

/-- C6: on a duplicate-free vocabulary the packed mask is invariant under
any reordering of the input flag set, equals the bitwise OR of 1 shifted
by i over exactly the vocabulary positions i whose flag appears in the
set, ignores flags outside the vocabulary (the embedding is total, so
nothing is raised), and packs the empty set to 0. -/
theorem flags_to_int_or_characterization (flag_list S S2 : List String)
    (hL : flag_list.Nodup) (hperm : S.Perm S2) :
    flags_to_int flag_list S = flags_to_int flag_list S2 ∧
    flags_to_int flag_list S = packOrSpec flag_list S ∧
    (∀ f, f ∉ flag_list →
      flags_to_int flag_list (f :: S) = flags_to_int flag_list S) ∧
    flags_to_int flag_list [] = 0 := by
  refine ⟨?_, flags_to_int_eq_packOrSpec flag_list S hL, ?_, rfl⟩
  · calc flags_to_int flag_list S
        = packOrSpec flag_list S := flags_to_int_eq_packOrSpec flag_list S hL
      _ = packOrSpec flag_list S2 :=
        packOrSpec_congr flag_list (fun x => hperm.mem_iff)
      _ = flags_to_int flag_list S2 :=
        (flags_to_int_eq_packOrSpec flag_list S2 hL).symm
  · intro f hf
    apply Nat.eq_of_testBit_eq
    intro k
    rw [flags_to_int_testBit, flags_to_int_testBit, List.any_cons,
      flag_bitmask_get_of_not_mem flag_list f hf]
    simp

/-- Witness for C6 at the default vocabulary: packing car and bike in
either order gives the same mask, which matches the OR formula. -/
theorem flags_to_int_or_characterization_witness :
    flags_to_int ["car", "bike", "foot"] ["bike", "car"] =
      flags_to_int ["car", "bike", "foot"] ["car", "bike"] ∧
    flags_to_int ["car", "bike", "foot"] ["bike", "car"] =
      packOrSpec ["car", "bike", "foot"] ["bike", "car"] :=
  ⟨(flags_to_int_or_characterization ["car", "bike", "foot"] ["bike", "car"]
      ["car", "bike"] (by decide) (List.Perm.swap "car" "bike" [])).1,
   (flags_to_int_or_characterization ["car", "bike", "foot"] ["bike", "car"]
      ["car", "bike"] (by decide) (List.Perm.swap "car" "bike" [])).2.1⟩
